import Mathlib

/-!
Shallow embedding of the RAPPOR client encoder (`src/encoder.cc`) and proofs
about its Bloom-filter, PRR and IRR stages.

Modelling conventions:
* C++ `std::string` values and `std::vector<uint8_t>` digests are `List Nat`
  (one `Nat` per byte).
* The C `Bits` type is `uint32_t`; masks are `Nat` and the C bitwise
  complement `~x` is `x ^^^ (2 ^ 32 - 1)`, exact for operands below `2 ^ 32`.
* C `int` parameters are `Int`; C `float` probabilities are `ℚ` (the float
  comparisons against the exactly representable constants 0.0 and 1.0, and
  the exact multiplication by 128 followed by truncation, coincide with the
  rational ones).
* The injected stateful randomness source `IrrRandInterface::GetMask` is a
  function from the draw index within one encode call (0 for the first draw,
  1 for the second) and the `(prob, num_bits)` arguments to `Option Bits`;
  `none` models a failed draw.
* The constructor's `log(...); assert(false)` configuration checks are
  modelled by the boolean `EncoderValid`: `false` means the constructor hits
  a fatal assertion.
-/

namespace Rappor

/-- A byte string: one `Nat` per byte. -/
abbrev Bytes := List Nat

/-- The C `Bits` type (`uint32_t`), modelled as `Nat`. -/
abbrev Bits := Nat

/-- Constant `static const int kMaxBits = 32`. -/
def kMaxBits : Int := 32

/-- Constant `static const int kMaxHashes = 16`. -/
def kMaxHashes : Int := 16

/-- The `Params` struct: structural and probability parameters. -/
structure Params where
  num_bits : Int
  num_hashes : Int
  num_cohorts : Int
  prob_f : ℚ
  prob_p : ℚ
  prob_q : ℚ

/-- The `Deps` struct: cohort, client secret and the injected capabilities. -/
structure Deps where
  cohort : Int
  hash_func : Bytes → Bytes
  client_secret : Bytes
  hmac_func : Bytes → Bytes → Bytes
  irr_rand : Nat → ℚ → Int → Option Bits

/-- Function `CheckValidProbability`: `true` iff the check passes
(`prob <= 0.0f || prob > 1.0f` triggers the fatal assertion). -/
def CheckValidProbability (prob : ℚ) : Bool :=
  if prob ≤ 0 ∨ 1 < prob then false else true

/-- Constructor `Encoder::Encoder`: `true` iff construction passes every validation
check (no fatal assertion fires). -/
def EncoderValid (params : Params) (deps : Deps) : Bool :=
  if params.num_bits ≤ 0 then false
  else if params.num_hashes ≤ 0 then false
  else if params.num_cohorts ≤ 0 then false
  else if kMaxBits < params.num_bits then false
  else if kMaxHashes < params.num_hashes then false
  else if params.num_cohorts ≤ deps.cohort then false
  else CheckValidProbability params.prob_f &&
       CheckValidProbability params.prob_p &&
       CheckValidProbability params.prob_q

/-- The 32-bit complement `~x` of C, for `Bits = uint32_t`. -/
def comp32 (x : Bits) : Bits := x ^^^ (2 ^ 32 - 1)

/-- The hash input built by `Encoder::MakeBloomFilter`:
`[0, 0, 0, cohort & 0xFF]` followed by the value bytes. -/
def bloomHashInput (deps : Deps) (value : Bytes) : Bytes :=
  [0, 0, 0, (deps.cohort % 256).toNat] ++ value

/-- The Bloom accumulation loop of `Encoder::MakeBloomFilter`:
`for (i = 0; i < num_hashes; ++i) bloom |= 1 << (hash_output[i] % num_bits)`. -/
def bloomLoop (hash_output : Bytes) (num_bits num_hashes : Nat) : Bits :=
  (List.range num_hashes).foldl
    (fun bloom i => bloom ||| (1 <<< (hash_output.getD i 0 % num_bits))) 0

/-- Method `Encoder::MakeBloomFilter`: `none` models `return false`.  The
`size() < static_cast<size_t>(num_hashes)` comparison is modelled with
`Int.toNat`, which agrees with the C cast for the nonnegative `num_hashes`
the constructor enforces. -/
def MakeBloomFilter (params : Params) (deps : Deps) (value : Bytes) :
    Option Bits :=
  if (deps.hash_func (bloomHashInput deps value)).length <
      params.num_hashes.toNat then none
  else some (bloomLoop (deps.hash_func (bloomHashInput deps value))
    params.num_bits.toNat params.num_hashes.toNat)

/-- The mask accumulation loop of `Encoder::GetPrrMasks`: at step `i`,
`uniform |= (byte & 0x01) << i` and `f_mask |= (byte >> 1 < threshold128) << i`. -/
def prrLoop (sha256 : Bytes) (threshold128 : Nat) (num_bits : Nat) :
    Bits × Bits :=
  (List.range num_bits).foldl
    (fun acc i =>
      let byte := sha256.getD i 0
      let u_bit := byte % 2
      let rand128 := byte / 2
      let noise_bit := if rand128 < threshold128 then 1 else 0
      (acc.1 ||| (u_bit <<< i), acc.2 ||| (noise_bit <<< i)))
    (0, 0)

/-- Method `Encoder::GetPrrMasks`: returns `(uniform, f_mask)`, or `none` when the
HMAC digest does not have exactly `kMaxBits = 32` bytes.  The C
`threshold128 = static_cast<uint8_t>(prob_f * 128)` is modelled as
`(⌊prob_f * 128⌋).toNat`, which agrees with the C float computation for the
probabilities in `(0, 1]` the constructor enforces: multiplication of a
float by the power of two 128 is exact and the in-range `uint8_t` cast
truncates toward zero. -/
def GetPrrMasks (params : Params) (deps : Deps) (value : Bytes) :
    Option (Bits × Bits) :=
  if (deps.hmac_func deps.client_secret value).length ≠ 32 then none
  else some (prrLoop (deps.hmac_func deps.client_secret value)
    (⌊params.prob_f * 128⌋).toNat params.num_bits.toNat)

/-- Method `Encoder::_EncodeInternal`: returns `(bloom, prr, irr)`, or `none` when
any stage fails. -/
def EncodeInternal (params : Params) (deps : Deps) (value : Bytes) :
    Option (Bits × Bits × Bits) :=
  match MakeBloomFilter params deps value with
  | none => none
  | some bloom =>
    match GetPrrMasks params deps value with
    | none => none
    | some masks =>
      let prr := (bloom &&& comp32 masks.2) ||| (masks.1 &&& masks.2)
      match deps.irr_rand 0 params.prob_p params.num_bits with
      | none => none
      | some p_bits =>
        match deps.irr_rand 1 params.prob_q params.num_bits with
        | none => none
        | some q_bits =>
          let irr := (p_bits &&& comp32 prr) ||| (q_bits &&& prr)
          some (bloom, prr, irr)

/-- Method `Encoder::Encode`: only the IRR is returned to the caller. -/
def Encode (params : Params) (deps : Deps) (value : Bytes) : Option Bits :=
  (EncodeInternal params deps value).map (fun t => t.2.2)

/-- The 4-byte big-endian encoding of a cohort, following the spec's words
"a 4-byte big-endian encoding of the cohort"; to be compared with the input
`MakeBloomFilter` actually builds. -/
def cohortBigEndian4 (c : Int) : Bytes :=
  [((c / 2 ^ 24) % 256).toNat, ((c / 2 ^ 16) % 256).toNat,
   ((c / 2 ^ 8) % 256).toNat, (c % 256).toNat]

section BitLemmas

lemma testBit_bit_shiftLeft (b i j : Nat) (hb : b ≤ 1) :
    ((b <<< i).testBit j) = (decide (j = i) && decide (b = 1)) := by
  rw [Nat.testBit_shiftLeft]
  interval_cases b
  · simp [Nat.zero_testBit]
  · rcases Nat.lt_trichotomy j i with h | h | h
    · simp [Nat.not_le.mpr h, Nat.ne_of_lt h]
    · subst h; simp [Nat.testBit_zero]
    · simp only [ge_iff_le, Nat.le_of_lt h, decide_True, Bool.true_and]
      rw [show (1 : Nat) = 2 ^ 0 by rfl, Nat.testBit_two_pow]
      simp; omega

lemma bloomLoop_succ (h : Bytes) (nb m : Nat) :
    bloomLoop h nb (m + 1) =
      bloomLoop h nb m ||| (1 <<< (h.getD m 0 % nb)) := by
  unfold bloomLoop
  rw [List.range_succ, List.foldl_append]
  rfl

lemma bloomLoop_testBit (h : Bytes) (nb m i : Nat) :
    (bloomLoop h nb m).testBit i = true ↔
      ∃ j, j < m ∧ h.getD j 0 % nb = i := by
  induction m with
  | zero =>
    simp only [bloomLoop, List.range_zero, List.foldl_nil, Nat.zero_testBit]
    simp
  | succ m ih =>
    rw [bloomLoop_succ, Nat.testBit_lor,
      testBit_bit_shiftLeft _ _ _ (le_refl 1)]
    constructor
    · intro hset
      rcases Bool.or_eq_true_iff.mp hset with hl | hr
      · obtain ⟨j, hj, hje⟩ := ih.mp hl
        exact ⟨j, Nat.lt_succ_of_lt hj, hje⟩
      · refine ⟨m, Nat.lt_succ_self m, ?_⟩
        simp only [Bool.and_eq_true, decide_eq_true_eq] at hr
        exact hr.1.symm
    · rintro ⟨j, hj, hje⟩
      rcases Nat.lt_succ_iff_lt_or_eq.mp hj with hj' | hj'
      · exact Bool.or_eq_true_iff.mpr (Or.inl (ih.mpr ⟨j, hj', hje⟩))
      · subst hj'
        refine Bool.or_eq_true_iff.mpr (Or.inr ?_)
        simp only [Bool.and_eq_true, decide_eq_true_eq]
        simp only [List.getD] at hje ⊢
        exact ⟨hje.symm, trivial⟩

lemma prrLoop_succ (d : Bytes) (t m : Nat) :
    prrLoop d t (m + 1) =
      ((prrLoop d t m).1 ||| ((d.getD m 0 % 2) <<< m),
       (prrLoop d t m).2 |||
         ((if d.getD m 0 / 2 < t then 1 else 0) <<< m)) := by
  unfold prrLoop
  rw [List.range_succ, List.foldl_append]
  rfl

lemma prrLoop_testBit (d : Bytes) (t m i : Nat) :
    ((prrLoop d t m).1.testBit i =
      (decide (i < m) && decide (d.getD i 0 % 2 = 1))) ∧
    ((prrLoop d t m).2.testBit i =
      (decide (i < m) && decide (d.getD i 0 / 2 < t))) := by
  induction m with
  | zero =>
    simp only [prrLoop, List.range_zero, List.foldl_nil, Nat.zero_testBit]
    simp
  | succ m ih =>
    rw [prrLoop_succ]
    have hu : d.getD m 0 % 2 ≤ 1 := Nat.le_of_lt_succ (Nat.mod_lt _ (by omega))
    have hn : (if d.getD m 0 / 2 < t then 1 else 0) ≤ 1 := by
      split <;> omega
    constructor
    · rw [Nat.testBit_lor, ih.1, testBit_bit_shiftLeft _ _ _ hu]
      rcases Nat.lt_trichotomy i m with h | h | h
      · simp [h, Nat.lt_succ_of_lt h, Nat.ne_of_lt h]
      · subst h
        simp [Nat.lt_succ_self, Nat.lt_irrefl]
      · simp [Nat.not_lt.mpr (Nat.succ_le_of_lt h), Nat.lt_irrefl,
          Nat.not_lt.mpr (Nat.le_of_lt h), Nat.ne_of_gt h]
    · rw [Nat.testBit_lor, ih.2, testBit_bit_shiftLeft _ _ _ hn]
      rcases Nat.lt_trichotomy i m with h | h | h
      · simp [h, Nat.lt_succ_of_lt h, Nat.ne_of_lt h]
      · subst h
        by_cases ht : d.getD i 0 / 2 < t <;>
          simp [Nat.lt_succ_self, Nat.lt_irrefl, ht]
      · simp [Nat.not_lt.mpr (Nat.succ_le_of_lt h), Nat.lt_irrefl,
          Nat.not_lt.mpr (Nat.le_of_lt h), Nat.ne_of_gt h]

lemma bloomLoop_lt_two_pow (h : Bytes) (nb m : Nat) (hnb : 0 < nb) :
    ∀ i, nb ≤ i → (bloomLoop h nb m).testBit i = false := by
  intro i hi
  by_contra hc
  have := (bloomLoop_testBit h nb m i).mp (by
    cases hb : (bloomLoop h nb m).testBit i
    · exact absurd hb hc
    · rfl)
  obtain ⟨j, _, hje⟩ := this
  have := Nat.mod_lt (h.getD j 0) hnb
  omega

lemma prrLoop_high_false (d : Bytes) (t m : Nat) :
    ∀ i, m ≤ i →
      (prrLoop d t m).1.testBit i = false ∧
      (prrLoop d t m).2.testBit i = false := by
  intro i hi
  have h := prrLoop_testBit d t m i
  constructor
  · rw [h.1]; simp [Nat.not_lt.mpr hi]
  · rw [h.2]; simp [Nat.not_lt.mpr hi]

end BitLemmas

section Inversion

/-- Inversion of a successful `EncodeInternal` run: it recovers the
successful Bloom stage, the successful PRR-mask stage, the PRR combine
equation, the two successful randomness draws and the IRR combine
equation. -/
lemma encodeInternal_inv (params : Params) (deps : Deps) (value : Bytes)
    (b prr irr : Bits)
    (h : EncodeInternal params deps value = some (b, prr, irr)) :
    MakeBloomFilter params deps value = some b ∧
    ∃ u f, GetPrrMasks params deps value = some (u, f) ∧
      prr = (b &&& comp32 f) ||| (u &&& f) ∧
      ∃ pb qb,
        deps.irr_rand 0 params.prob_p params.num_bits = some pb ∧
        deps.irr_rand 1 params.prob_q params.num_bits = some qb ∧
        irr = (pb &&& comp32 prr) ||| (qb &&& prr) := by
  unfold EncodeInternal at h
  cases hb : MakeBloomFilter params deps value with
  | none => rw [hb] at h; exact absurd h (by simp)
  | some bloom =>
    rw [hb] at h
    cases hm : GetPrrMasks params deps value with
    | none => rw [hm] at h; exact absurd h (by simp)
    | some masks =>
      obtain ⟨u, f⟩ := masks
      rw [hm] at h
      cases hp : deps.irr_rand 0 params.prob_p params.num_bits with
      | none => rw [hp] at h; exact absurd h (by simp)
      | some pb =>
        rw [hp] at h
        cases hq : deps.irr_rand 1 params.prob_q params.num_bits with
        | none => rw [hq] at h; exact absurd h (by simp)
        | some qb =>
          rw [hq] at h
          simp only [Option.some.injEq, Prod.mk.injEq] at h
          obtain ⟨hb', hprr, hirr⟩ := h
          subst hb'
          refine ⟨rfl, u, f, rfl, hprr.symm, pb, qb, rfl, rfl, ?_⟩
          rw [← hirr, hprr]

/-- A successful `EncodeInternal` run requires every stage to succeed. -/
lemma encodeInternal_eq_none_iff (params : Params) (deps : Deps)
    (value : Bytes) :
    EncodeInternal params deps value = none ↔
      (MakeBloomFilter params deps value = none ∨
       GetPrrMasks params deps value = none ∨
       deps.irr_rand 0 params.prob_p params.num_bits = none ∨
       deps.irr_rand 1 params.prob_q params.num_bits = none) := by
  unfold EncodeInternal
  cases hb : MakeBloomFilter params deps value with
  | none => simp
  | some bloom =>
    cases hm : GetPrrMasks params deps value with
    | none => simp
    | some masks =>
      cases hp : deps.irr_rand 0 params.prob_p params.num_bits with
      | none => simp
      | some pb =>
        cases hq : deps.irr_rand 1 params.prob_q params.num_bits with
        | none => simp
        | some qb => simp

end Inversion

section ConcreteInstances

/-- A trivial injected hash: a fixed all-zero 16-byte digest. -/
def zeroHash : Bytes → Bytes := fun _ => List.replicate 16 0

/-- A trivial injected HMAC: a fixed all-zero 32-byte digest. -/
def zeroHmac : Bytes → Bytes → Bytes := fun _ _ => List.replicate 32 0

/-- A trivial injected randomness source: every draw yields the zero mask. -/
def zeroRand : Nat → ℚ → Int → Option Bits := fun _ _ _ => some 0

/-- Concrete parameters for witness evaluations. -/
def wParams : Params :=
  { num_bits := 32, num_hashes := 2, num_cohorts := 128,
    prob_f := 1, prob_p := 1, prob_q := 1 }

/-- Concrete dependencies for witness evaluations. -/
def wDeps : Deps :=
  { cohort := 3, hash_func := zeroHash, client_secret := [],
    hmac_func := zeroHmac, irr_rand := zeroRand }

end ConcreteInstances

/-- C6: construction signals a configuration fault (a fatal assertion,
leaving the encoder unusable) if and only if `num_bits` is outside
`(0, 32]`, or `num_hashes` is outside `(0, 16]`, or `num_cohorts ≤ 0`, or
`cohort ≥ num_cohorts`, or one of `prob_f`, `prob_p`, `prob_q` lies outside
`(0.0, 1.0]` (each probability rejects `0.0` and anything above `1.0` and
accepts exactly `1.0`).  The `num_bits % 8` clause of the claim is
conditional on an implementation that requires byte-aligned digest slicing;
this `uint32_t` implementation slices one digest byte per bit and has no
such requirement. -/
theorem construction_validation_iff (params : Params) (deps : Deps) :
    EncoderValid params deps = false ↔
      (params.num_bits ≤ 0 ∨ 32 < params.num_bits ∨
       params.num_hashes ≤ 0 ∨ 16 < params.num_hashes ∨
       params.num_cohorts ≤ 0 ∨ params.num_cohorts ≤ deps.cohort ∨
       params.prob_f ≤ 0 ∨ 1 < params.prob_f ∨
       params.prob_p ≤ 0 ∨ 1 < params.prob_p ∨
       params.prob_q ≤ 0 ∨ 1 < params.prob_q) := by
  unfold EncoderValid CheckValidProbability kMaxBits kMaxHashes
  split_ifs <;> simp_all <;> tauto

/-- C3: whenever the injected hash function returns at least `num_hashes`
bytes, `MakeBloomFilter` succeeds and the output has bit `i` set if and
only if some `j < num_hashes` satisfies `hash_output[j] % num_bits = i`;
repeated indices are OR'ed idempotently. -/
theorem bloom_filter_bit_selection (params : Params) (deps : Deps)
    (value : Bytes)
    (h : params.num_hashes.toNat ≤
      (deps.hash_func (bloomHashInput deps value)).length) :
    ∃ b, MakeBloomFilter params deps value = some b ∧
      ∀ i, (b.testBit i = true ↔
        ∃ j, j < params.num_hashes.toNat ∧
          (deps.hash_func (bloomHashInput deps value)).getD j 0 %
            params.num_bits.toNat = i) := by
  refine ⟨bloomLoop (deps.hash_func (bloomHashInput deps value))
    params.num_bits.toNat params.num_hashes.toNat, ?_, ?_⟩
  · unfold MakeBloomFilter
    rw [if_neg (Nat.not_lt.mpr h)]
  · exact fun i => bloomLoop_testBit _ _ _ i

/-- Parameters admitting more than 256 cohorts (all validation checks
pass). -/
def c4Params : Params :=
  { num_bits := 32, num_hashes := 2, num_cohorts := 257,
    prob_f := 1, prob_p := 1, prob_q := 1 }

/-- Dependencies bound to cohort 256, a legal cohort under `c4Params`. -/
def c4Deps : Deps :=
  { cohort := 256, hash_func := zeroHash, client_secret := [],
    hmac_func := zeroHmac, irr_rand := zeroRand }

/-- C4 (counterexample): with `num_cohorts = 257` the construction checks
all pass for cohort 256, yet the hash input `MakeBloomFilter` builds,
`[0, 0, 0, cohort & 0xFF] ++ value = [0, 0, 0, 0]`, is not the 4-byte
big-endian encoding `[0, 0, 1, 0]` of the cohort: only the low 8 bits of
the cohort reach the hash input. -/
theorem bloom_hash_input_cex :
    EncoderValid c4Params c4Deps = true ∧
    (0 : Int) ≤ c4Deps.cohort ∧ c4Deps.cohort < c4Params.num_cohorts ∧
    bloomHashInput c4Deps [] ≠ cohortBigEndian4 c4Deps.cohort ++ [] := by
  refine ⟨?_, by decide, by decide, by decide⟩
  simp [EncoderValid, CheckValidProbability, c4Params, c4Deps, kMaxBits,
    kMaxHashes]

/-- C4 (amended): for every value and every cohort in `[0, num_cohorts)`
that is below 256 — in particular for every cohort whenever
`num_cohorts ≤ 256` — the input `MakeBloomFilter` passes to the injected
hash function is the 4-byte big-endian encoding of the cohort concatenated
with the raw value bytes; in general the cohort is truncated to its low
8 bits first. -/
theorem bloom_hash_input_big_endian (deps : Deps) (value : Bytes)
    (h0 : 0 ≤ deps.cohort) (h256 : deps.cohort < 256) :
    bloomHashInput deps value = cohortBigEndian4 deps.cohort ++ value := by
  unfold bloomHashInput cohortBigEndian4
  have e24 : (2 : Int) ^ 24 = 16777216 := by norm_num
  have e16 : (2 : Int) ^ 16 = 65536 := by norm_num
  have e8 : (2 : Int) ^ 8 = 256 := by norm_num
  have h24 : deps.cohort / 2 ^ 24 = 0 :=
    Int.ediv_eq_zero_of_lt h0 (by rw [e24]; omega)
  have h16 : deps.cohort / 2 ^ 16 = 0 :=
    Int.ediv_eq_zero_of_lt h0 (by rw [e16]; omega)
  have h8 : deps.cohort / 2 ^ 8 = 0 :=
    Int.ediv_eq_zero_of_lt h0 (by rw [e8]; omega)
  rw [h24, h16, h8]
  simp

/-- Witness for C4's amended theorem at cohort 3 and value
`"foo" = [102, 111, 111]`. -/
theorem bloom_hash_input_big_endian_witness :
    bloomHashInput wDeps [102, 111, 111] =
      cohortBigEndian4 wDeps.cohort ++ [102, 111, 111] :=
  bloom_hash_input_big_endian wDeps [102, 111, 111] (by decide) (by decide)

/-- Witness for C3 at the concrete witness encoder and the empty value:
the injected hash returns 16 bytes, at least `num_hashes = 2`. -/
theorem bloom_filter_bit_selection_witness :
    ∃ b, MakeBloomFilter wParams wDeps [] = some b ∧
      ∀ i, (b.testBit i = true ↔
        ∃ j, j < wParams.num_hashes.toNat ∧
          (wDeps.hash_func (bloomHashInput wDeps [])).getD j 0 %
            wParams.num_bits.toNat = i) :=
  bloom_filter_bit_selection wParams wDeps [] (by decide)

/-- C1: whenever the HMAC digest of `(secret, value)` has exactly 32 bytes
(and the encoder's `num_bits ≤ kMaxBits` assertion holds), `GetPrrMasks`
succeeds; for every bit position
`i < num_bits` the uniform mask's bit `i` is the least-significant bit of
`digest[i]`, the noise mask's bit `i` is set iff `digest[i] >> 1` — an
integer in `[0, 128)` — is strictly below `⌊prob_f * 128⌋`, and the PRR
computed by `_EncodeInternal` is
`(BloomFilter &&& ~noise_mask) ||| (uniform_mask &&& noise_mask)`. -/
theorem prr_derivation (params : Params) (deps : Deps) (value : Bytes)
    (hlen : (deps.hmac_func deps.client_secret value).length = 32)
    (hbytes : ∀ x ∈ deps.hmac_func deps.client_secret value, x < 256)
    (hnb : params.num_bits ≤ kMaxBits) :
    ∃ u f, GetPrrMasks params deps value = some (u, f) ∧
      (∀ i, i < params.num_bits.toNat →
        (u.testBit i =
          ((deps.hmac_func deps.client_secret value).getD i 0).testBit 0 ∧
         (f.testBit i = true ↔
           (((deps.hmac_func deps.client_secret value).getD i 0 / 2 : ℕ) :
             ℤ) < ⌊params.prob_f * 128⌋) ∧
         (deps.hmac_func deps.client_secret value).getD i 0 / 2 < 128)) ∧
      (∀ b prr irr, EncodeInternal params deps value = some (b, prr, irr) →
        prr = (b &&& comp32 f) ||| (u &&& f)) := by
  refine ⟨(prrLoop (deps.hmac_func deps.client_secret value)
      (⌊params.prob_f * 128⌋).toNat params.num_bits.toNat).1,
    (prrLoop (deps.hmac_func deps.client_secret value)
      (⌊params.prob_f * 128⌋).toNat params.num_bits.toNat).2, ?_, ?_, ?_⟩
  · unfold GetPrrMasks
    rw [if_neg (by rw [hlen]; trivial)]
  · intro i hi
    have hbit := prrLoop_testBit (deps.hmac_func deps.client_secret value)
      (⌊params.prob_f * 128⌋).toNat params.num_bits.toNat i
    have hgetd : (deps.hmac_func deps.client_secret value).getD i 0 < 256 := by
      have hi32 : i < (deps.hmac_func deps.client_secret value).length := by
        rw [hlen]
        have : params.num_bits.toNat ≤ 32 := by
          unfold kMaxBits at hnb; omega
        omega
      rw [List.getD_eq_getElem _ _ hi32]
      exact hbytes _ (List.getElem_mem hi32)
    refine ⟨?_, ?_, by omega⟩
    · rw [hbit.1, Nat.testBit_zero]
      simp [hi]
    · rw [hbit.2]
      simp only [hi, decide_True, Bool.true_and, decide_eq_true_eq]
      rw [← Int.lt_toNat]
  · intro b prr irr h
    obtain ⟨-, u', f', hm, hprr, -⟩ := encodeInternal_inv params deps value
      b prr irr h
    have : GetPrrMasks params deps value =
        some ((prrLoop (deps.hmac_func deps.client_secret value)
          (⌊params.prob_f * 128⌋).toNat params.num_bits.toNat).1,
        (prrLoop (deps.hmac_func deps.client_secret value)
          (⌊params.prob_f * 128⌋).toNat params.num_bits.toNat).2) := by
      unfold GetPrrMasks
      rw [if_neg (by rw [hlen]; trivial)]
    rw [this] at hm
    simp only [Option.some.injEq, Prod.mk.injEq] at hm
    rw [hprr, hm.1, hm.2]

/-- Witness for C1 at the concrete witness encoder: the injected HMAC
returns 32 zero bytes. -/
theorem prr_derivation_witness :
    ∃ u f, GetPrrMasks wParams wDeps [] = some (u, f) ∧
      (∀ i, i < wParams.num_bits.toNat →
        (u.testBit i =
          ((wDeps.hmac_func wDeps.client_secret []).getD i 0).testBit 0 ∧
         (f.testBit i = true ↔
           (((wDeps.hmac_func wDeps.client_secret []).getD i 0 / 2 : ℕ) :
             ℤ) < ⌊wParams.prob_f * 128⌋) ∧
         (wDeps.hmac_func wDeps.client_secret []).getD i 0 / 2 < 128)) ∧
      (∀ b prr irr, EncodeInternal wParams wDeps [] = some (b, prr, irr) →
        prr = (b &&& comp32 f) ||| (u &&& f)) :=
  prr_derivation wParams wDeps [] (by rfl)
    (fun x hx => by rw [List.eq_of_mem_replicate hx]; omega) (by decide)

/-- Evaluation of the witness encoder on the empty value: the all-zero
16-byte hash digest sets only Bloom bit 0, the all-zero HMAC digest fires
every noise bit with an all-zero uniform mask (so the PRR is 0), and the
all-zero randomness draws leave the IRR 0. -/
lemma wEncodeInternal_eval : EncodeInternal wParams wDeps [] = some (1, 0, 0) := by
  have ht : (⌊wParams.prob_f * 128⌋).toNat = 128 := by simp [wParams]
  unfold EncodeInternal GetPrrMasks
  rw [ht]
  decide

/-- C2: for every successful `_EncodeInternal` run, the two masks drawn
from the injected randomness source — `p_bits` first with probability
`prob_p`, `q_bits` second with probability `prob_q`, both requested at
width `num_bits` — exist, and the final output is
`(p_bits &&& ~PRR) ||| (q_bits &&& PRR)`. -/
theorem irr_derivation (params : Params) (deps : Deps) (value : Bytes)
    (b prr irr : Bits)
    (h : EncodeInternal params deps value = some (b, prr, irr)) :
    ∃ p_bits q_bits,
      deps.irr_rand 0 params.prob_p params.num_bits = some p_bits ∧
      deps.irr_rand 1 params.prob_q params.num_bits = some q_bits ∧
      irr = (p_bits &&& comp32 prr) ||| (q_bits &&& prr) := by
  obtain ⟨-, u, f, -, -, pb, qb, hp, hq, hirr⟩ :=
    encodeInternal_inv params deps value b prr irr h
  exact ⟨pb, qb, hp, hq, hirr⟩

/-- Witness for C2 at the concrete witness encoder. -/
theorem irr_derivation_witness :
    ∃ p_bits q_bits,
      wDeps.irr_rand 0 wParams.prob_p wParams.num_bits = some p_bits ∧
      wDeps.irr_rand 1 wParams.prob_q wParams.num_bits = some q_bits ∧
      (0 : Bits) = (p_bits &&& comp32 0) ||| (q_bits &&& 0) :=
  irr_derivation wParams wDeps [] 1 0 0 wEncodeInternal_eval

/-- C5: the PRR is a pure function of `(secret, value, cohort, params)`:
holding the cohort, hash function, client secret and HMAC function fixed
while the randomness source varies arbitrarily, `MakeBloomFilter` and
`GetPrrMasks` are unchanged, and any two successful `_EncodeInternal` runs
produce identical Bloom and PRR bits; only the IRR stage consumes
randomness. -/
theorem prr_deterministic (params : Params) (d1 d2 : Deps) (value : Bytes)
    (hc : d1.cohort = d2.cohort) (hh : d1.hash_func = d2.hash_func)
    (hs : d1.client_secret = d2.client_secret)
    (hm : d1.hmac_func = d2.hmac_func) :
    MakeBloomFilter params d1 value = MakeBloomFilter params d2 value ∧
    GetPrrMasks params d1 value = GetPrrMasks params d2 value ∧
    ∀ b prr irr b' prr' irr',
      EncodeInternal params d1 value = some (b, prr, irr) →
      EncodeInternal params d2 value = some (b', prr', irr') →
      b = b' ∧ prr = prr' := by
  have hin : bloomHashInput d1 value = bloomHashInput d2 value := by
    unfold bloomHashInput; rw [hc]
  have h1 : MakeBloomFilter params d1 value = MakeBloomFilter params d2 value := by
    unfold MakeBloomFilter; rw [hin, hh]
  have h2 : GetPrrMasks params d1 value = GetPrrMasks params d2 value := by
    unfold GetPrrMasks; rw [hs, hm]
  refine ⟨h1, h2, ?_⟩
  intro b prr irr b' prr' irr' he1 he2
  obtain ⟨hb1, u1, f1, hg1, hp1, -⟩ :=
    encodeInternal_inv params d1 value b prr irr he1
  obtain ⟨hb2, u2, f2, hg2, hp2, -⟩ :=
    encodeInternal_inv params d2 value b' prr' irr' he2
  rw [h1] at hb1
  rw [hb2] at hb1
  rw [h2] at hg1
  rw [hg2] at hg1
  simp only [Option.some.injEq, Prod.mk.injEq] at hb1 hg1
  refine ⟨hb1.symm, ?_⟩
  rw [hp1, hp2, hb1, hg1.1, hg1.2]

/-- Witness for C5: two witness dependency bundles that differ only in
their randomness source (all-zero draws against failing draws). -/
theorem prr_deterministic_witness :
    MakeBloomFilter wParams wDeps [] =
      MakeBloomFilter wParams
        { wDeps with irr_rand := fun _ _ _ => none } [] ∧
    GetPrrMasks wParams wDeps [] =
      GetPrrMasks wParams
        { wDeps with irr_rand := fun _ _ _ => none } [] ∧
    ∀ b prr irr b' prr' irr',
      EncodeInternal wParams wDeps [] = some (b, prr, irr) →
      EncodeInternal wParams
        { wDeps with irr_rand := fun _ _ _ => none } [] =
          some (b', prr', irr') →
      b = b' ∧ prr = prr' :=
  prr_deterministic wParams wDeps
    { wDeps with irr_rand := fun _ _ _ => none } [] rfl rfl rfl rfl

/-- C7: on a validly constructed encoder, a call to `Encode` fails —
returning `none`, so no output bits are produced and no default pattern is
substituted — exactly when the hash function returns fewer than
`num_hashes` bytes, or the HMAC digest length differs from 32, or either
of the two randomness draws fails.  The encoder itself (`params`, `deps`)
is immutable state, so a failing call leaves it unchanged and reusable. -/
theorem operational_fault_iff (params : Params) (deps : Deps) (value : Bytes)
    (_hv : EncoderValid params deps = true) :
    Encode params deps value = none ↔
      ((deps.hash_func (bloomHashInput deps value)).length <
          params.num_hashes.toNat ∨
       (deps.hmac_func deps.client_secret value).length ≠ 32 ∨
       deps.irr_rand 0 params.prob_p params.num_bits = none ∨
       deps.irr_rand 1 params.prob_q params.num_bits = none) := by
  have hmap : Encode params deps value = none ↔
      EncodeInternal params deps value = none := by
    unfold Encode
    exact Option.map_eq_none'
  rw [hmap, encodeInternal_eq_none_iff]
  have hbf : (MakeBloomFilter params deps value = none) ↔
      (deps.hash_func (bloomHashInput deps value)).length <
        params.num_hashes.toNat := by
    unfold MakeBloomFilter
    split <;> simp_all
  have hpm : (GetPrrMasks params deps value = none) ↔
      (deps.hmac_func deps.client_secret value).length ≠ 32 := by
    unfold GetPrrMasks
    split <;> simp_all
  rw [hbf, hpm]

/-- Witness for C7 at the concrete witness encoder (where every stage in
fact succeeds, so both sides of the equivalence are false). -/
theorem operational_fault_iff_witness :
    Encode wParams wDeps [] = none ↔
      ((wDeps.hash_func (bloomHashInput wDeps [])).length <
          wParams.num_hashes.toNat ∨
       (wDeps.hmac_func wDeps.client_secret []).length ≠ 32 ∨
       wDeps.irr_rand 0 wParams.prob_p wParams.num_bits = none ∨
       wDeps.irr_rand 1 wParams.prob_q wParams.num_bits = none) :=
  operational_fault_iff wParams wDeps []
    (by simp [EncoderValid, CheckValidProbability, wParams, wDeps,
      kMaxBits, kMaxHashes])

/-- C8: for every successful derivation on an encoder with positive
`num_bits` whose randomness source only returns masks below
`2 ^ num_bits`, none of the Bloom filter, the PRR and the IRR has any bit
set at a position `i ≥ num_bits`. -/
theorem bounded_width (params : Params) (deps : Deps) (value : Bytes)
    (hnb : 0 < params.num_bits)
    (hrand : ∀ idx prob nb m, deps.irr_rand idx prob nb = some m →
      m < 2 ^ params.num_bits.toNat)
    (b prr irr : Bits)
    (h : EncodeInternal params deps value = some (b, prr, irr)) :
    ∀ i, params.num_bits.toNat ≤ i →
      b.testBit i = false ∧ prr.testBit i = false ∧
        irr.testBit i = false := by
  obtain ⟨hb, u, f, hg, hprr, pb, qb, hp, hq, hirr⟩ :=
    encodeInternal_inv params deps value b prr irr h
  intro i hi
  have hnbt : 0 < params.num_bits.toNat := by omega
  have hbe : b = bloomLoop (deps.hash_func (bloomHashInput deps value))
      params.num_bits.toNat params.num_hashes.toNat := by
    unfold MakeBloomFilter at hb
    split at hb
    · exact absurd hb (by simp)
    · simp only [Option.some.injEq] at hb
      exact hb.symm
  have huf : u = (prrLoop (deps.hmac_func deps.client_secret value)
        (⌊params.prob_f * 128⌋).toNat params.num_bits.toNat).1 ∧
      f = (prrLoop (deps.hmac_func deps.client_secret value)
        (⌊params.prob_f * 128⌋).toNat params.num_bits.toNat).2 := by
    unfold GetPrrMasks at hg
    split at hg
    · exact absurd hg (by simp)
    · simp only [Option.some.injEq] at hg
      exact ⟨by rw [hg], by rw [hg]⟩
  have hbbit : b.testBit i = false := by
    rw [hbe]
    exact bloomLoop_lt_two_pow _ _ _ hnbt i hi
  have hubit : u.testBit i = false := by
    rw [huf.1]
    exact (prrLoop_high_false _ _ _ i hi).1
  have hfbit : f.testBit i = false := by
    rw [huf.2]
    exact (prrLoop_high_false _ _ _ i hi).2
  have hprrbit : prr.testBit i = false := by
    rw [hprr, Nat.testBit_lor, Nat.testBit_land, Nat.testBit_land,
      hbbit, hubit]
    simp
  refine ⟨hbbit, hprrbit, ?_⟩
  have hple : (2 : Nat) ^ params.num_bits.toNat ≤ 2 ^ i :=
    Nat.pow_le_pow_right (by norm_num) hi
  have hpbit : pb.testBit i = false :=
    Nat.testBit_eq_false_of_lt (lt_of_lt_of_le (hrand _ _ _ _ hp) hple)
  have hqbit : qb.testBit i = false :=
    Nat.testBit_eq_false_of_lt (lt_of_lt_of_le (hrand _ _ _ _ hq) hple)
  rw [hirr, Nat.testBit_lor, Nat.testBit_land, Nat.testBit_land,
    hpbit, hqbit]
  simp

/-- Witness for C8 at the concrete witness encoder and bit position 33. -/
theorem bounded_width_witness :
    (1 : Bits).testBit 33 = false ∧ (0 : Bits).testBit 33 = false ∧
      (0 : Bits).testBit 33 = false :=
  bounded_width wParams wDeps [] (by decide)
    (fun idx prob nb m hm => by
      simp only [wDeps, zeroRand, Option.some.injEq] at hm
      rw [← hm]
      decide)
    1 0 0 wEncodeInternal_eval 33 (by decide)

/-- C10: only the low 8 bits of the cohort influence the encoding: for two
dependency bundles whose cohorts agree modulo 256 and that agree on the
other fields, `MakeBloomFilter` and `Encode` behave identically for every
parameter set and value. -/
theorem cohort_truncation (params : Params) (d1 d2 : Deps) (value : Bytes)
    (hc : d1.cohort % 256 = d2.cohort % 256)
    (hh : d1.hash_func = d2.hash_func)
    (hs : d1.client_secret = d2.client_secret)
    (hm : d1.hmac_func = d2.hmac_func) (hr : d1.irr_rand = d2.irr_rand) :
    MakeBloomFilter params d1 value = MakeBloomFilter params d2 value ∧
    Encode params d1 value = Encode params d2 value := by
  have hin : bloomHashInput d1 value = bloomHashInput d2 value := by
    unfold bloomHashInput
    rw [hc]
  have h1 : MakeBloomFilter params d1 value =
      MakeBloomFilter params d2 value := by
    unfold MakeBloomFilter
    rw [hin, hh]
  have h2 : GetPrrMasks params d1 value = GetPrrMasks params d2 value := by
    unfold GetPrrMasks
    rw [hs, hm]
  refine ⟨h1, ?_⟩
  unfold Encode EncodeInternal
  rw [h1, h2, hr]

/-- Witness for C10: cohorts 3 and 259 agree modulo 256 and give the same
Bloom filter and the same encoding. -/
theorem cohort_truncation_witness :
    MakeBloomFilter wParams wDeps [] =
      MakeBloomFilter wParams { wDeps with cohort := 259 } [] ∧
    Encode wParams wDeps [] =
      Encode wParams { wDeps with cohort := 259 } [] :=
  cohort_truncation wParams wDeps { wDeps with cohort := 259 } []
    (by decide) rfl rfl rfl rfl

end Rappor
